import Mathlib

/-!
Verification of the rule-analysis stage of the RecStep Datalog-to-SQL
translator (`rule_analyzer/translator.py`).

The Python module works over parsed rule structures: atoms carry a relation
name and a positional list of arguments, each argument carrying a `name` and a
`type` tag.  The nested `collections.OrderedDict` maps built by the analyzer
are modelled as insertion-ordered association lists; Python runtime errors
(KeyError from subscripting a missing dict key, TypeError from subscripting
`None`, the explicit `raise Exception`) are modelled with `Except PyErr`.
-/

namespace RecStep

/-- A rule argument as produced by the parser: `arg.name` and `arg.type`
(the latter is called `ty` here because `type` is a Lean keyword). -/
structure Arg where
  name : String
  ty : String
deriving DecidableEq

/-- A rule atom: `atom['name']` and `atom['arg_list']`. -/
structure Atom where
  name : String
  arg_list : List Arg
deriving DecidableEq

/-- Inner mapping of `variable_arg_to_atom_map`: atom index to the list of
argument indexes, as an insertion-ordered association list. -/
abbrev VarEntry := List (Nat × List Nat)

/-- `variable_arg_to_atom_map`: variable name to its `VarEntry`, as an
insertion-ordered association list (models `collections.OrderedDict`). -/
abbrev VariableArgToAtomMap := List (String × VarEntry)

/-- Association-list lookup: first entry with the given key (Python `m[k]`
read on a dict whose keys are unique). -/
def aget {α β : Type} [DecidableEq α] : List (α × β) → α → Option β
  | [], _ => none
  | p :: rest, k => if p.1 = k then some p.2 else aget rest k

/-- Association-list "get key or insert default, then update in place":
models the Python pattern `if k not in m: m[k] = d` followed by an in-place
modification of `m[k]`.  A new key is appended at the end (dict insertion
order); an existing key keeps its position. -/
def aupdate {α β : Type} [DecidableEq α] : List (α × β) → α → β → (β → β) → List (α × β)
  | [], k, d, f => [(k, f d)]
  | p :: rest, k, d, f => if p.1 = k then (p.1, f p.2) :: rest else p :: aupdate rest k d f

/-- One step of the indexing loop body of `extract_variable_arg_to_atom_map`
(translator.py lines 34-38): ensure the outer entry for `name` and the inner
entry for `atom_index` exist, then append `arg_index`. -/
def addOccurrence (m : VariableArgToAtomMap) (name : String) (atom_index arg_index : Nat) :
    VariableArgToAtomMap :=
  aupdate m name [] (fun inner => aupdate inner atom_index [] (fun l => l ++ [arg_index]))

/-- The inner loop `for arg_index in range(atom_arg_num)` of
`extract_variable_arg_to_atom_map`: arguments whose `type` is not
`'variable'` are skipped (`continue`). -/
def indexArgs (atom_index : Nat) : List Arg → Nat → VariableArgToAtomMap → VariableArgToAtomMap
  | [], _, m => m
  | a :: rest, arg_index, m =>
    indexArgs atom_index rest (arg_index + 1)
      (if a.ty = "variable" then addOccurrence m a.name atom_index arg_index else m)

/-- The outer loop `for atom_index in range(body_atom_num)` of
`extract_variable_arg_to_atom_map`. -/
def indexAtoms : List Atom → Nat → VariableArgToAtomMap → VariableArgToAtomMap
  | [], _, m => m
  | atom :: rest, atom_index, m =>
    indexAtoms rest (atom_index + 1) (indexArgs atom_index atom.arg_list 0 m)

/-- `extract_variable_arg_to_atom_map` (translator.py lines 9-40). -/
def extract_variable_arg_to_atom_map (body_atoms : List Atom) : VariableArgToAtomMap :=
  indexAtoms body_atoms 0 []

/-- Python runtime errors raised by the analyzer. -/
inductive PyErr where
  | keyError (key : String)
  | typeError
  | exception (msg : String)
deriving DecidableEq

/-- The `{'atom_index': .., 'arg_index': ..}` record returned by the
binding resolver. -/
structure ArgMapping where
  atom_index : Nat
  arg_index : Nat
deriving DecidableEq

/-- The nested `for atom_index in ..: for arg_index in ..: return ...` of
`search_argument_mapping_in_body_atoms`: the first argument index of the
first atom entry whose index list is non-empty (an empty list makes the
inner loop body never run). -/
def firstPair : VarEntry → Option ArgMapping
  | [] => none
  | p :: rest =>
    match p.2 with
    | [] => firstPair rest
    | arg_index :: _ => some ⟨p.1, arg_index⟩

/-- `search_argument_mapping_in_body_atoms` (translator.py lines 43-59).
Line 53 subscripts the dict (`variable_arg_to_atom_map[var_name]`) with no
membership check, so a name that is not a key raises `KeyError`; the
`return None` on line 59 is only reachable when the key exists but all its
index lists are empty. -/
def search_argument_mapping_in_body_atoms (variable_arg_to_atom_map : VariableArgToAtomMap)
    (var_name : String) : Except PyErr (Option ArgMapping) :=
  match aget variable_arg_to_atom_map var_name with
  | none => .error (.keyError var_name)
  | some inner => .ok (firstPair inner)

/-- `extract_join_map` (translator.py lines 136-160): keep the variables
whose entry spans more than one atom or has more than one position inside
some atom, preserving iteration order. -/
def extract_join_map (variable_arg_to_atom_map : VariableArgToAtomMap) : VariableArgToAtomMap :=
  variable_arg_to_atom_map.filter
    (fun p => decide (1 < p.2.length) || p.2.any (fun q => decide (1 < q.2.length)))

/-- One comparison operand: the pair `lhs[0]` (the argument, kept as its
source string) and `lhs[1]` (the `'var'`/`'num'` tag). -/
structure Operand where
  arg : String
  ty : String
deriving DecidableEq

/-- One entry of `body_comparisons`: `comparison['lhs']`,
`comparison['rhs']`, `comparison['op']`. -/
structure Comparison where
  lhs : Operand
  rhs : Operand
  op : String
deriving DecidableEq

/-- The non-base side of a comparison record: either the keys
`other_side_type = 'num'` with `numerical_value`, or
`other_side_type = 'var'` with `other_side_atom_index`/`other_side_arg_index`.
The source stores `float(compare_arg)`; the IEEE-754 conversion is not
modelled, the literal is kept as its source string. -/
inductive OtherSide where
  | num (value : String)
  | varSide (atom_index : Nat) (arg_index : Nat)
deriving DecidableEq

/-- The `comparison_struct` dict built for each comparison. -/
structure ComparisonStruct where
  base_variable_side : String
  compare_op : String
  other : OtherSide
deriving DecidableEq

/-- `comparison_map`: atom index to argument index to the accumulated list
of comparison structs. -/
abbrev ComparisonMap := List (Nat × List (Nat × List ComparisonStruct))

/-- Lines 202-205 and 219-220 of `extract_comparison_map`: ensure the two
nested entries exist and append the struct. -/
def recordStruct (m : ComparisonMap) (mp : ArgMapping) (s : ComparisonStruct) : ComparisonMap :=
  aupdate m mp.atom_index [] (fun inner => aupdate inner mp.arg_index [] (fun l => l ++ [s]))

/-- The loop body of `extract_comparison_map` (translator.py lines 176-220)
for a single comparison.  Subscripting the resolver result when it is `None`
would raise `TypeError` in Python. -/
def processComparison (variable_arg_to_atom_map : VariableArgToAtomMap) (m : ComparisonMap)
    (comparison : Comparison) : Except PyErr ComparisonMap :=
  if comparison.lhs.ty ≠ "var" ∧ comparison.rhs.ty ≠ "var" then
    .error (.exception "At least one side of the comparison has to be variable in the body relations")
  else
    let base_side := if comparison.lhs.ty = "var" then "l" else "r"
    let base_var := if comparison.lhs.ty = "var" then comparison.lhs.arg else comparison.rhs.arg
    let compare_arg := if comparison.lhs.ty = "var" then comparison.rhs.arg else comparison.lhs.arg
    let compare_arg_ty := if comparison.lhs.ty = "var" then comparison.rhs.ty else comparison.lhs.ty
    match search_argument_mapping_in_body_atoms variable_arg_to_atom_map base_var with
    | .error e => .error e
    | .ok none => .error .typeError
    | .ok (some mp) =>
      if compare_arg_ty = "num" then
        .ok (recordStruct m mp ⟨base_side, comparison.op, .num compare_arg⟩)
      else
        match search_argument_mapping_in_body_atoms variable_arg_to_atom_map compare_arg with
        | .error e => .error e
        | .ok none => .error .typeError
        | .ok (some mp2) =>
          .ok (recordStruct m mp ⟨base_side, comparison.op, .varSide mp2.atom_index mp2.arg_index⟩)

/-- `extract_comparison_map` (translator.py lines 163-222). -/
def extract_comparison_map (body_comparisons : List Comparison)
    (variable_arg_to_atom_map : VariableArgToAtomMap) : Except PyErr ComparisonMap :=
  body_comparisons.foldlM (fun m c => processComparison variable_arg_to_atom_map m c) []

/-- One entry of the negation map: `{'arg_name': .., 'arg_type': ..}`. -/
structure NegArgInfo where
  arg_name : String
  arg_type : String
deriving DecidableEq

/-- `negation_map`: negation atom index to argument index to name/type. -/
abbrev NegationMap := List (Nat × List (Nat × NegArgInfo))

/-- `anti_join_map`: negation atom index to argument index to resolved
positive-body position. -/
abbrev AntiJoinMap := List (Nat × List (Nat × ArgMapping))

/-- Inner loop of the first pass of `extract_negation_map` (lines 279-285):
every argument position is recorded with its name and type. -/
def negationArgInfos : List Arg → Nat → List (Nat × NegArgInfo)
  | [], _ => []
  | a :: rest, arg_index => (arg_index, ⟨a.name, a.ty⟩) :: negationArgInfos rest (arg_index + 1)

/-- First pass of `extract_negation_map` (lines 273-285): every negation
atom index gets an entry covering all of its argument positions. -/
def buildNegationMap : List Atom → Nat → NegationMap
  | [], _ => []
  | a :: rest, negation_index =>
    (negation_index, negationArgInfos a.arg_list 0) :: buildNegationMap rest (negation_index + 1)

/-- Inner loop of the second pass of `extract_negation_map` (lines 289-298):
variable-typed positions are resolved against the positive body; a `None`
result is skipped (`continue`), a resolver error propagates. -/
def buildAntiJoinEntry (variable_arg_to_atom_map : VariableArgToAtomMap) :
    List (Nat × NegArgInfo) → Except PyErr (List (Nat × ArgMapping))
  | [] => .ok []
  | (arg_index, info) :: rest =>
    if info.arg_type = "variable" then
      match search_argument_mapping_in_body_atoms variable_arg_to_atom_map info.arg_name with
      | .error e => .error e
      | .ok r =>
        match buildAntiJoinEntry variable_arg_to_atom_map rest with
        | .error e => .error e
        | .ok restEntries =>
          match r with
          | none => .ok restEntries
          | some mp => .ok ((arg_index, mp) :: restEntries)
    else buildAntiJoinEntry variable_arg_to_atom_map rest

/-- Second pass of `extract_negation_map` (lines 287-298): an atom only gets
an `anti_join_map` entry once a position actually resolves. -/
def buildAntiJoinMap (variable_arg_to_atom_map : VariableArgToAtomMap) :
    NegationMap → Except PyErr AntiJoinMap
  | [] => .ok []
  | (negation_index, infos) :: rest =>
    match buildAntiJoinEntry variable_arg_to_atom_map infos with
    | .error e => .error e
    | .ok entry =>
      match buildAntiJoinMap variable_arg_to_atom_map rest with
      | .error e => .error e
      | .ok restMap => .ok (if entry.isEmpty then restMap else (negation_index, entry) :: restMap)

/-- The `{'negation_map': .., 'anti_join_map': ..}` result. -/
structure NegationResult where
  negation_map : NegationMap
  anti_join_map : AntiJoinMap
deriving DecidableEq

/-- `extract_negation_map` (translator.py lines 256-303). -/
def extract_negation_map (body_negation_atoms : List Atom)
    (variable_arg_to_atom_map : VariableArgToAtomMap) : Except PyErr NegationResult :=
  let negation_map := buildNegationMap body_negation_atoms 0
  match buildAntiJoinMap variable_arg_to_atom_map negation_map with
  | .error e => .error e
  | .ok anti => .ok ⟨negation_map, anti⟩

/-- One `{'alias': .., 'type': ..}` dict of `body_atom_eval_names`
(`alias` and `type` are Lean keywords, hence `aliasName`/`ty`). -/
structure EvalName where
  aliasName : String
  ty : String
deriving DecidableEq

/-- The `{'body_atom_eval_names': .., 'idb_num': ..}` result of
`build_recursive_atom_aliases`. -/
structure AtomAliasesMap where
  body_atom_eval_names : List (List EvalName)
  idb_num : Nat
deriving DecidableEq

/-- `build_recursive_atom_aliases` (translator.py lines 347-375).  The eval
set is the key set of `eval_idb_to_rule_maps` (Python `in` on a dict);
`"{}_delta_{}".format(name, iter_num - 1)` is modelled with `Int`
subtraction and `toString`. -/
def build_recursive_atom_aliases (body_atoms : List Atom) (eval_idb_to_rule_maps : List String)
    (iter_num : Int) : AtomAliasesMap :=
  { body_atom_eval_names :=
      body_atoms.map (fun atom =>
        if atom.name ∈ eval_idb_to_rule_maps then
          [⟨atom.name ++ "_prev", "prev"⟩,
           ⟨atom.name ++ "_delta_" ++ toString (iter_num - 1), "delta"⟩]
        else
          [⟨atom.name, "default"⟩]),
    idb_num := (body_atoms.filter (fun atom => decide (atom.name ∈ eval_idb_to_rule_maps))).length }

/-- One alias combination under construction. -/
abbrev AliasGroup := List EvalName

/-- The loop body of the expansion loop of `build_recursive_atom_alias_groups`
(translator.py lines 399-421) for one atom position: on an empty running list
start one group per eval name; otherwise extend every group with the first
eval name and, for each remaining eval name, append extended deep copies of
the pre-extension groups.  The `[]` branches are unreachable when every atom
has at least one eval name (the source would raise `IndexError` there). -/
def expandStep (atom_eval_name_groups : List AliasGroup) (atom_eval_names : List EvalName) :
    List AliasGroup :=
  if atom_eval_name_groups.length = 0 then
    atom_eval_names.map (fun e => [e])
  else if 1 < atom_eval_names.length then
    match atom_eval_names with
    | [] => atom_eval_name_groups
    | first :: others =>
      atom_eval_name_groups.map (fun g => g ++ [first]) ++
        (others.map (fun e => atom_eval_name_groups.map (fun g => g ++ [e]))).flatten
  else
    match atom_eval_names with
    | [] => atom_eval_name_groups
    | e :: _ => atom_eval_name_groups.map (fun g => g ++ [e])

/-- The `for atom_index in range(body_atom_num)` expansion loop. -/
def expandGroups : List (List EvalName) → List AliasGroup → List AliasGroup
  | [], groups => groups
  | names :: rest, groups => expandGroups rest (expandStep groups names)

/-- `prev_count` of one group (translator.py lines 425-428). -/
def prevCount (group : AliasGroup) : Nat :=
  (group.filter (fun e => decide (e.ty = "prev"))).length

/-- Python `list.remove`: delete the first element equal to the value. -/
def removeFirst {α : Type} [DecidableEq α] : List α → α → List α
  | [], _ => []
  | x :: rest, y => if x = y then rest else x :: removeFirst rest y

/-- The removal loop of `build_recursive_atom_alias_groups` (translator.py
lines 424-430) with Python's mutate-while-iterating semantics: iteration is
by position `i` over the current list; a removal shifts later elements left
while `i` still advances.  The loop runs at most `groups.length` times (the
index grows each step and the list never grows), so that much fuel makes the
recursion exact. -/
def removeLoop (idb_num : Nat) : Nat → List AliasGroup → Nat → List AliasGroup
  | 0, groups, _ => groups
  | fuel + 1, groups, i =>
    if h : i < groups.length then
      let group := groups.get ⟨i, h⟩
      if prevCount group = idb_num then
        removeLoop idb_num fuel (removeFirst groups group) (i + 1)
      else
        removeLoop idb_num fuel groups (i + 1)
    else groups

/-- `build_recursive_atom_alias_groups` (translator.py lines 378-432).
`range(len(body_atoms))` indexes into `body_atom_eval_names`; in every call
the two lists have the same length (the alias map is built from the same
`body_atoms`), which `take` reflects. -/
def build_recursive_atom_alias_groups (body_atoms : List Atom)
    (atom_aliases_map : AtomAliasesMap) : List AliasGroup :=
  let body_atom_eval_names := atom_aliases_map.body_atom_eval_names.take body_atoms.length
  let groups := expandGroups body_atom_eval_names []
  removeLoop atom_aliases_map.idb_num groups.length groups 0

/-! ### Specification-side definitions

These follow the claims' wording (occurrence positions in scan order) and
are compared against the association lists the source builds. -/

/-- Positions (counting from `i`) of the variable-typed arguments named
`name`, in increasing order. -/
def varPositionsFrom (name : String) : List Arg → Nat → List Nat
  | [], _ => []
  | a :: rest, i =>
    if a.ty = "variable" ∧ a.name = name then i :: varPositionsFrom name rest (i + 1)
    else varPositionsFrom name rest (i + 1)

/-- The (atom index, variable positions) entries (atom indexes counting from
`i`) of the atoms whose argument list mentions `name` as a variable, in
increasing atom order. -/
def atomsContaining (name : String) : List Atom → Nat → List (Nat × List Nat)
  | [], _ => []
  | a :: rest, i =>
    let ps := varPositionsFrom name a.arg_list 0
    if ps.isEmpty then atomsContaining name rest (i + 1)
    else (i, ps) :: atomsContaining name rest (i + 1)

/-- All (atom index, argument index) pairs recorded in a `VarEntry`. -/
def recordedPairs : VarEntry → List (Nat × Nat)
  | [] => []
  | p :: rest => p.2.map (fun g => (p.1, g)) ++ recordedPairs rest

/-- Whether `name` occurs as a variable argument in `args`. -/
def argsContainVar (args : List Arg) (name : String) : Bool :=
  args.any (fun g => decide (g.ty = "variable" ∧ g.name = name))

/-- How many times `name` occurs as a variable argument in `args`. -/
def varCount (args : List Arg) (name : String) : Nat :=
  (args.filter (fun g => decide (g.ty = "variable" ∧ g.name = name))).length

/-- Total number of comparison structs recorded in one atom's entry. -/
def innerSum (inner : List (Nat × List ComparisonStruct)) : Nat :=
  (inner.map (fun q => q.2.length)).sum

/-- Total number of comparison structs recorded in a `ComparisonMap`. -/
def structCount (m : ComparisonMap) : Nat :=
  (m.map (fun p => innerSum p.2)).sum

/-! ### Association-list lemmas -/

theorem aget_aupdate {α β : Type} [DecidableEq α] (m : List (α × β)) (k k' : α) (d : β)
    (f : β → β) :
    aget (aupdate m k d f) k' =
      if k = k' then some (f ((aget m k).getD d)) else aget m k' := by
  induction m with
  | nil =>
    by_cases hk : k = k' <;> simp [aget, aupdate, hk]
  | cons p rest ih =>
    by_cases hp : p.1 = k
    · by_cases hk : k = k'
      · have hpk : p.1 = k' := hp.trans hk
        simp [aupdate, aget, hp, hk, hpk]
      · have hpk : ¬ p.1 = k' := fun hh => hk (hp.symm.trans hh)
        simp [aupdate, aget, hp, hk, hpk]
    · by_cases hk : k = k'
      · subst hk
        simp [aupdate, aget, hp, ih]
      · have hk' : ¬ k' = k := fun hh => hk hh.symm
        by_cases hpk : p.1 = k' <;> simp [aupdate, aget, hp, hk, hk', hpk, ih]

theorem aupdate_not_mem {α β : Type} [DecidableEq α] (m : List (α × β)) (k : α) (d : β)
    (f : β → β) (h : ∀ p ∈ m, p.1 ≠ k) : aupdate m k d f = m ++ [(k, f d)] := by
  induction m with
  | nil => simp [aupdate]
  | cons p rest ih =>
    have hp : p.1 ≠ k := h p (by simp)
    simp [aupdate, hp, ih (fun q hq => h q (by simp [hq]))]

theorem mem_aupdate {α β : Type} [DecidableEq α] {m : List (α × β)} {k : α} {d : β}
    {f : β → β} {p : α × β} (h : p ∈ aupdate m k d f) : p.1 = k ∨ p ∈ m := by
  induction m with
  | nil =>
    simp [aupdate] at h
    simp [h]
  | cons q rest ih =>
    by_cases hq : q.1 = k
    · simp [aupdate, hq] at h
      rcases h with h | h
      · left
        rw [h]
      · right; simp [h]
    · simp [aupdate, hq] at h
      rcases h with h | h
      · right; simp [h]
      · rcases ih h with h' | h'
        · left; exact h'
        · right; simp [h']

theorem aupdate_aupdate {α β : Type} [DecidableEq α] (m : List (α × β)) (k : α) (d : β)
    (f g : β → β) :
    aupdate (aupdate m k d f) k d g = aupdate m k d (fun v => g (f v)) := by
  induction m with
  | nil => simp [aupdate]
  | cons p rest ih =>
    by_cases hp : p.1 = k <;> simp [aupdate, hp, ih]

/-- The key list of an association list. -/
def keys {α β : Type} (m : List (α × β)) : List α := m.map Prod.fst

theorem keys_aupdate_mem {α β : Type} [DecidableEq α] (m : List (α × β)) (k : α) (d : β)
    (f : β → β) (h : k ∈ keys m) : keys (aupdate m k d f) = keys m := by
  induction m with
  | nil => simp [keys] at h
  | cons p rest ih =>
    by_cases hp : p.1 = k
    · simp [aupdate, hp, keys]
    · have hrest : k ∈ keys rest := by
        simp [keys] at h
        rcases h with h | h
        · exact absurd h.symm hp
        · simpa [keys] using h
      simp [aupdate, hp, keys]
      simpa [keys] using ih hrest

theorem keys_aupdate_not_mem {α β : Type} [DecidableEq α] (m : List (α × β)) (k : α) (d : β)
    (f : β → β) (h : k ∉ keys m) : keys (aupdate m k d f) = keys m ++ [k] := by
  induction m with
  | nil => simp [aupdate, keys]
  | cons p rest ih =>
    simp [keys] at h
    have hp : ¬ p.1 = k := fun hh => h.1 hh.symm
    have hrest : k ∉ keys rest := by
      simp [keys]
      exact h.2
    simp [aupdate, hp, keys]
    simpa [keys] using ih hrest

theorem nodup_keys_aupdate {α β : Type} [DecidableEq α] {m : List (α × β)} (k : α) (d : β)
    (f : β → β) (h : (keys m).Nodup) : (keys (aupdate m k d f)).Nodup := by
  by_cases hm : k ∈ keys m
  · rw [keys_aupdate_mem m k d f hm]
    exact h
  · rw [keys_aupdate_not_mem m k d f hm]
    simp [List.nodup_append, h, hm]

theorem aget_eq_none_of_not_mem_keys {α β : Type} [DecidableEq α] {m : List (α × β)} {k : α}
    (h : k ∉ keys m) : aget m k = none := by
  induction m with
  | nil => simp [aget]
  | cons p rest ih =>
    simp [keys] at h
    have hp : ¬ p.1 = k := fun hh => h.1 hh.symm
    have hrest : k ∉ keys rest := by
      simp [keys]
      exact h.2
    simp [aget, hp, ih hrest]

theorem aget_filter {α β : Type} [DecidableEq α] (p : α × β → Bool) (m : List (α × β)) (k : α)
    (h : (keys m).Nodup) :
    aget (m.filter p) k =
      match aget m k with
      | none => none
      | some v => if p (k, v) then some v else none := by
  induction m with
  | nil => simp [aget]
  | cons q rest ih =>
    have hnd : (keys rest).Nodup := by
      simp [keys] at h
      exact h.2
    by_cases hq : q.1 = k
    · have hk : k ∉ keys rest := by
        simp [keys] at h ⊢
        rw [← hq]
        exact h.1
      have hrest : aget rest k = none := aget_eq_none_of_not_mem_keys hk
      by_cases hpq : p q
      · have : p (k, q.2) = true := by rw [← hq]; simpa using hpq
        simp [List.filter_cons, hpq, aget, hq, this]
      · have : ¬ p (k, q.2) = true := by rw [← hq]; simpa using hpq
        simp [List.filter_cons, hpq, aget, hq, this]
        rw [ih hnd]
        simp [hrest]
    · by_cases hpq : p q <;> simp [List.filter_cons, hpq, aget, hq, ih hnd]

/-! ### Characterization of the variable-occurrence index -/

theorem aget_indexArgs (args : List Arg) (atom_index start : Nat) (m : VariableArgToAtomMap)
    (name : String) :
    aget (indexArgs atom_index args start m) name =
      if (varPositionsFrom name args start).isEmpty then aget m name
      else some (aupdate ((aget m name).getD []) atom_index []
        (fun l => l ++ varPositionsFrom name args start)) := by
  induction args generalizing start m with
  | nil => simp [indexArgs, varPositionsFrom]
  | cons a rest ih =>
    by_cases hv : a.ty = "variable" ∧ a.name = name
    · have hps : varPositionsFrom name (a :: rest) start
          = start :: varPositionsFrom name rest (start + 1) := by
        simp [varPositionsFrom, hv]
      have hstep : indexArgs atom_index (a :: rest) start m
          = indexArgs atom_index rest (start + 1) (addOccurrence m a.name atom_index start) := by
        simp [indexArgs, hv.1]
      have hget : aget (addOccurrence m a.name atom_index start) name
          = some (aupdate ((aget m name).getD []) atom_index [] (fun l => l ++ [start])) := by
        rw [hv.2]
        simp [addOccurrence, aget_aupdate]
      rcases htail : varPositionsFrom name rest (start + 1) with _ | ⟨q, qs⟩
      · simp [hstep, ih, hget, hps, htail]
      · simp only [hstep, ih, hget, hps, htail, List.isEmpty_cons, Option.getD_some,
          aupdate_aupdate, if_neg Bool.false_ne_true]
        congr 2
        funext l
        simp
    · have hps : varPositionsFrom name (a :: rest) start
          = varPositionsFrom name rest (start + 1) := by
        simp [varPositionsFrom, hv]
      by_cases hty : a.ty = "variable"
      · have hn : ¬ a.name = name := fun hh => hv ⟨hty, hh⟩
        have hstep : indexArgs atom_index (a :: rest) start m
            = indexArgs atom_index rest (start + 1) (addOccurrence m a.name atom_index start) := by
          simp [indexArgs, hty]
        have hget : aget (addOccurrence m a.name atom_index start) name = aget m name := by
          simp [addOccurrence, aget_aupdate, hn]
        rw [hstep, ih, hget, hps]
      · have hstep : indexArgs atom_index (a :: rest) start m
            = indexArgs atom_index rest (start + 1) m := by
          simp [indexArgs, hty]
        rw [hstep, ih, hps]

theorem aget_indexAtoms (atoms : List Atom) (start : Nat) (m : VariableArgToAtomMap)
    (name : String) (hfresh : ∀ e ∈ (aget m name).getD [], e.1 < start) :
    aget (indexAtoms atoms start m) name =
      if (atomsContaining name atoms start).isEmpty then aget m name
      else some ((aget m name).getD [] ++ atomsContaining name atoms start) := by
  induction atoms generalizing start m with
  | nil => simp [indexAtoms, atomsContaining]
  | cons a rest ih =>
    have hidx := aget_indexArgs a.arg_list start 0 m name
    by_cases hps : (varPositionsFrom name a.arg_list 0).isEmpty
    · have hm' : aget (indexArgs start a.arg_list 0 m) name = aget m name := by
        rw [hidx, if_pos hps]
      have hcont : atomsContaining name (a :: rest) start
          = atomsContaining name rest (start + 1) := by
        simp [atomsContaining, hps]
      have hfresh' : ∀ e ∈ (aget (indexArgs start a.arg_list 0 m) name).getD [],
          e.1 < start + 1 := by
        rw [hm']
        intro e he
        exact Nat.lt_succ_of_lt (hfresh e he)
      simp only [indexAtoms]
      rw [ih (start + 1) _ hfresh', hm', hcont]
    · have hfresh0 : ∀ q ∈ (aget m name).getD [], q.1 ≠ start :=
        fun q hq => Nat.ne_of_lt (hfresh q hq)
      have hm' : aget (indexArgs start a.arg_list 0 m) name
          = some ((aget m name).getD [] ++ [(start, varPositionsFrom name a.arg_list 0)]) := by
        rw [hidx, if_neg hps]
        rw [aupdate_not_mem _ _ _ _ hfresh0]
        simp
      have hcont : atomsContaining name (a :: rest) start
          = (start, varPositionsFrom name a.arg_list 0)
              :: atomsContaining name rest (start + 1) := by
        simp [atomsContaining, hps]
      have hfresh' : ∀ e ∈ (aget (indexArgs start a.arg_list 0 m) name).getD [],
          e.1 < start + 1 := by
        rw [hm']
        intro e he
        simp at he
        rcases he with he | he
        · exact Nat.lt_succ_of_lt (hfresh e he)
        · rw [he]
          exact Nat.lt_succ_self start
      simp only [indexAtoms]
      rw [ih (start + 1) _ hfresh', hm', hcont]
      by_cases hrest : (atomsContaining name rest (start + 1)).isEmpty
      · rw [List.isEmpty_iff] at hrest
        simp [hrest]
      · simp [hrest]

/-- Entry characterization of `extract_variable_arg_to_atom_map`: the entry
for `name` exists exactly when some positive body atom mentions `name` as a
variable argument, and then it is the list of (atom index, positions) pairs
of the atoms containing `name`, in scan order with positions in increasing
order. -/
theorem aget_extract_variable_arg_to_atom_map (body_atoms : List Atom) (name : String) :
    aget (extract_variable_arg_to_atom_map body_atoms) name =
      if (atomsContaining name body_atoms 0).isEmpty then none
      else some (atomsContaining name body_atoms 0) := by
  have h := aget_indexAtoms body_atoms 0 [] name (by simp [aget])
  simpa [extract_variable_arg_to_atom_map, aget] using h

theorem nodup_keys_indexArgs (args : List Arg) (atom_index start : Nat)
    (m : VariableArgToAtomMap) (h : (keys m).Nodup) :
    (keys (indexArgs atom_index args start m)).Nodup := by
  induction args generalizing start m with
  | nil => simpa [indexArgs] using h
  | cons a rest ih =>
    simp only [indexArgs]
    by_cases hty : a.ty = "variable"
    · simp only [hty, if_pos]
      exact ih (start + 1) _ (nodup_keys_aupdate _ _ _ h)
    · simp only [hty, if_neg, ite_false]
      exact ih (start + 1) m h

theorem nodup_keys_indexAtoms (atoms : List Atom) (start : Nat) (m : VariableArgToAtomMap)
    (h : (keys m).Nodup) : (keys (indexAtoms atoms start m)).Nodup := by
  induction atoms generalizing start m with
  | nil => simpa [indexAtoms] using h
  | cons a rest ih =>
    simp only [indexAtoms]
    exact ih (start + 1) _ (nodup_keys_indexArgs a.arg_list start 0 m h)

theorem nodup_keys_extract (body_atoms : List Atom) :
    (keys (extract_variable_arg_to_atom_map body_atoms)).Nodup :=
  nodup_keys_indexAtoms body_atoms 0 [] (by simp [keys])

/-! ### Structure of the specification-side occurrence lists -/

theorem varPositionsFrom_ge (name : String) (args : List Arg) (start : Nat) :
    ∀ q ∈ varPositionsFrom name args start, start ≤ q := by
  induction args generalizing start with
  | nil => simp [varPositionsFrom]
  | cons a rest ih =>
    intro q hq
    by_cases hv : a.ty = "variable" ∧ a.name = name
    · simp [varPositionsFrom, hv] at hq
      rcases hq with hq | hq
      · rw [hq]
      · exact Nat.le_of_succ_le (ih (start + 1) q hq)
    · simp [varPositionsFrom, hv] at hq
      exact Nat.le_of_succ_le (ih (start + 1) q hq)

theorem varPositionsFrom_pairwise (name : String) (args : List Arg) (start : Nat) :
    (varPositionsFrom name args start).Pairwise (· < ·) := by
  induction args generalizing start with
  | nil => simp [varPositionsFrom]
  | cons a rest ih =>
    by_cases hv : a.ty = "variable" ∧ a.name = name
    · simp only [varPositionsFrom, hv, and_self, if_pos, List.pairwise_cons]
      refine ⟨fun q hq => ?_, ih (start + 1)⟩
      exact Nat.lt_of_succ_le (varPositionsFrom_ge name rest (start + 1) q hq)
    · simpa [varPositionsFrom, hv] using ih (start + 1)

theorem atomsContaining_ge (name : String) (atoms : List Atom) (start : Nat) :
    ∀ e ∈ atomsContaining name atoms start, start ≤ e.1 := by
  induction atoms generalizing start with
  | nil => simp [atomsContaining]
  | cons a rest ih =>
    intro e he
    by_cases hps : (varPositionsFrom name a.arg_list 0).isEmpty
    · simp [atomsContaining, hps] at he
      exact Nat.le_of_succ_le (ih (start + 1) e he)
    · simp [atomsContaining, hps] at he
      rcases he with he | he
      · rw [he]
      · exact Nat.le_of_succ_le (ih (start + 1) e he)

theorem atomsContaining_pairwise (name : String) (atoms : List Atom) (start : Nat) :
    (atomsContaining name atoms start).Pairwise (fun e e' => e.1 < e'.1) := by
  induction atoms generalizing start with
  | nil => simp [atomsContaining]
  | cons a rest ih =>
    by_cases hps : (varPositionsFrom name a.arg_list 0).isEmpty
    · simpa [atomsContaining, hps] using ih (start + 1)
    · rw [show atomsContaining name (a :: rest) start
          = (start, varPositionsFrom name a.arg_list 0) :: atomsContaining name rest (start + 1)
        from by simp [atomsContaining, hps]]
      refine List.pairwise_cons.mpr ⟨fun e he => ?_, ih (start + 1)⟩
      exact Nat.lt_of_succ_le (atomsContaining_ge name rest (start + 1) e he)

theorem atomsContaining_entry (name : String) (atoms : List Atom) (start : Nat)
    (e : Nat × List Nat) (he : e ∈ atomsContaining name atoms start) :
    e.2 ≠ [] ∧ e.2.Pairwise (· < ·) := by
  induction atoms generalizing start with
  | nil => simp [atomsContaining] at he
  | cons a rest ih =>
    by_cases hps : (varPositionsFrom name a.arg_list 0).isEmpty
    · simp [atomsContaining, hps] at he
      exact ih (start + 1) he
    · simp [atomsContaining, hps] at he
      rcases he with he | he
      · subst he
        show varPositionsFrom name a.arg_list 0 ≠ []
          ∧ (varPositionsFrom name a.arg_list 0).Pairwise (· < ·)
        refine ⟨?_, varPositionsFrom_pairwise name a.arg_list 0⟩
        intro hnil
        rw [hnil] at hps
        exact hps rfl
      · exact ih (start + 1) he

theorem mem_recordedPairs (l : VarEntry) (q : Nat × Nat) (h : q ∈ recordedPairs l) :
    ∃ e ∈ l, q.1 = e.1 ∧ q.2 ∈ e.2 := by
  induction l with
  | nil => simp [recordedPairs] at h
  | cons p rest ih =>
    simp only [recordedPairs, List.mem_append, List.mem_map] at h
    rcases h with ⟨g, hg, rfl⟩ | h
    · exact ⟨p, List.mem_cons_self p rest, rfl, hg⟩
    · rcases ih h with ⟨e, he, h1, h2⟩
      exact ⟨e, List.mem_cons_of_mem p he, h1, h2⟩

theorem indexArgs_no_var (args : List Arg) (atom_index start : Nat) (m : VariableArgToAtomMap)
    (h : ∀ a ∈ args, a.ty ≠ "variable") : indexArgs atom_index args start m = m := by
  induction args generalizing start with
  | nil => simp [indexArgs]
  | cons a rest ih =>
    have ha : ¬ a.ty = "variable" := h a (List.mem_cons_self a rest)
    simp only [indexArgs, ha, ite_false]
    exact ih (start + 1) (fun b hb => h b (List.mem_cons_of_mem a hb))

theorem indexAtoms_no_var (atoms : List Atom) (start : Nat) (m : VariableArgToAtomMap)
    (h : ∀ atom ∈ atoms, ∀ a ∈ atom.arg_list, a.ty ≠ "variable") :
    indexAtoms atoms start m = m := by
  induction atoms generalizing start with
  | nil => simp [indexAtoms]
  | cons a rest ih =>
    simp only [indexAtoms]
    rw [indexArgs_no_var a.arg_list start 0 m (h a (List.mem_cons_self a rest))]
    exact ih (start + 1) (fun b hb => h b (List.mem_cons_of_mem a hb))

/-! ### Claim theorems -/

def edgeBodyXY : List Atom := [⟨"Edge", [⟨"x", "variable"⟩, ⟨"y", "variable"⟩]⟩]

def edgeBodyXYZ : List Atom :=
  [⟨"Edge", [⟨"x", "variable"⟩, ⟨"y", "variable"⟩]⟩,
   ⟨"Edge", [⟨"y", "variable"⟩, ⟨"z", "variable"⟩]⟩]

/-- C7: `extract_variable_arg_to_atom_map` has an entry exactly for the
names occurring as variable-typed arguments of the positive body atoms
(non-variable arguments and other atoms contribute nothing), the entry
lists, per atom containing the name, the argument positions in increasing
order (atoms in increasing index order), and an input with no variable
arguments yields an empty index. -/
theorem variable_index_characterization (body_atoms : List Atom) (name : String) :
    (aget (extract_variable_arg_to_atom_map body_atoms) name
        = if (atomsContaining name body_atoms 0).isEmpty then none
          else some (atomsContaining name body_atoms 0))
    ∧ ((∀ atom ∈ body_atoms, ∀ a ∈ atom.arg_list, a.ty ≠ "variable")
        → extract_variable_arg_to_atom_map body_atoms = []) := by
  constructor
  · exact aget_extract_variable_arg_to_atom_map body_atoms name
  · intro h
    unfold extract_variable_arg_to_atom_map
    exact indexAtoms_no_var body_atoms 0 [] h

/-- Witness for C7 at the spec scenario `Edge(x, y), Edge(y, z)` and at a
body with only a constant argument. -/
theorem variable_index_characterization_witness :
    aget (extract_variable_arg_to_atom_map edgeBodyXYZ) "y" = some [(0, [1]), (1, [0])]
    ∧ extract_variable_arg_to_atom_map [⟨"T", [⟨"1", "constant"⟩]⟩] = [] := by
  constructor
  · rw [(variable_index_characterization edgeBodyXYZ "y").1]
    decide
  · exact (variable_index_characterization [⟨"T", [⟨"1", "constant"⟩]⟩] "x").2 (by decide)

/-- C6: for every variable name recorded in the index built from the
positive body, `search_argument_mapping_in_body_atoms` returns the pair
that is smallest by atom index and then by argument index among all
recorded occurrences — the first occurrence in scan order. -/
theorem search_returns_first_occurrence (body_atoms : List Atom) (name : String)
    (inner : VarEntry)
    (h : aget (extract_variable_arg_to_atom_map body_atoms) name = some inner) :
    ∃ mp : ArgMapping,
      search_argument_mapping_in_body_atoms (extract_variable_arg_to_atom_map body_atoms) name
        = .ok (some mp)
      ∧ (mp.atom_index, mp.arg_index) ∈ recordedPairs inner
      ∧ ∀ q ∈ recordedPairs inner,
          mp.atom_index < q.1 ∨ (mp.atom_index = q.1 ∧ mp.arg_index ≤ q.2) := by
  have hC := aget_extract_variable_arg_to_atom_map body_atoms name
  rw [h] at hC
  by_cases hemp : (atomsContaining name body_atoms 0).isEmpty
  · rw [if_pos hemp] at hC
    exact absurd hC (by simp)
  · rw [if_neg hemp] at hC
    have hinner : inner = atomsContaining name body_atoms 0 := Option.some.inj hC
    obtain ⟨e, crest, hCs⟩ : ∃ e crest, atomsContaining name body_atoms 0 = e :: crest := by
      rcases hC' : atomsContaining name body_atoms 0 with _ | ⟨e, crest⟩
      · rw [hC'] at hemp
        exact absurd rfl hemp
      · exact ⟨e, crest, rfl⟩
    have hmem0 : e ∈ atomsContaining name body_atoms 0 := by
      rw [hCs]
      exact List.mem_cons_self e crest
    have hentry := atomsContaining_entry name body_atoms 0 e hmem0
    obtain ⟨p0, ptail, he2⟩ := List.exists_cons_of_ne_nil hentry.1
    have hfp : firstPair (e :: crest) = some ⟨e.1, p0⟩ := by
      simp [firstPair, he2]
    refine ⟨⟨e.1, p0⟩, ?_, ?_, ?_⟩
    · simp [search_argument_mapping_in_body_atoms, h, hinner, hCs, hfp]
    · rw [hinner, hCs]
      simp only [recordedPairs, List.mem_append, List.mem_map]
      exact Or.inl ⟨p0, by rw [he2]; exact List.mem_cons_self p0 ptail, rfl⟩
    · intro q hq
      rw [hinner, hCs] at hq
      simp only [recordedPairs, List.mem_append, List.mem_map] at hq
      rcases hq with ⟨g, hg, rfl⟩ | hq
      · rw [he2] at hg
        rcases List.mem_cons.mp hg with hg | hg
        · exact Or.inr ⟨rfl, by rw [hg]⟩
        · have hlt : p0 < g := by
            have hpw := hentry.2
            rw [he2] at hpw
            exact (List.pairwise_cons.mp hpw).1 g hg
          exact Or.inr ⟨rfl, Nat.le_of_lt hlt⟩
      · rcases mem_recordedPairs crest q hq with ⟨e', he', h1, _⟩
        have hpw := atomsContaining_pairwise name body_atoms 0
        rw [hCs] at hpw
        have := (List.pairwise_cons.mp hpw).1 e' he'
        exact Or.inl (by rw [h1]; exact this)

/-- Witness for C6 at the spec scenario `Edge(x, y), Edge(y, z)` with
variable `y`, whose occurrences are atom 0 position 1 and atom 1 position 0. -/
theorem search_returns_first_occurrence_witness :
    ∃ mp : ArgMapping,
      search_argument_mapping_in_body_atoms (extract_variable_arg_to_atom_map edgeBodyXYZ) "y"
        = .ok (some mp)
      ∧ (mp.atom_index, mp.arg_index) ∈ recordedPairs [(0, [1]), (1, [0])]
      ∧ ∀ q ∈ recordedPairs [(0, [1]), (1, [0])],
          mp.atom_index < q.1 ∨ (mp.atom_index = q.1 ∧ mp.arg_index ≤ q.2) :=
  search_returns_first_occurrence edgeBodyXYZ "y" [(0, [1]), (1, [0])] (by decide)

theorem varPositionsFrom_length (name : String) (args : List Arg) (start : Nat) :
    (varPositionsFrom name args start).length = varCount args name := by
  induction args generalizing start with
  | nil => simp [varPositionsFrom, varCount]
  | cons a rest ih =>
    by_cases hv : a.ty = "variable" ∧ a.name = name <;>
      simp [varPositionsFrom, varCount, List.filter_cons, hv] <;>
        simpa [varCount] using ih (start + 1)

theorem varPositionsFrom_empty_iff (name : String) (args : List Arg) (start : Nat) :
    (varPositionsFrom name args start).isEmpty = true ↔ argsContainVar args name = false := by
  induction args generalizing start with
  | nil => simp [varPositionsFrom, argsContainVar]
  | cons a rest ih =>
    by_cases hv : a.ty = "variable" ∧ a.name = name
    · simp [varPositionsFrom, argsContainVar, hv]
    · have ha : decide (a.ty = "variable" ∧ a.name = name) = false := by
        simp only [decide_eq_false_iff_not]
        exact hv
      simp only [varPositionsFrom, if_neg hv, argsContainVar, List.any_cons, ha, Bool.false_or]
      exact ih (start + 1)

theorem atomsContaining_length (name : String) (atoms : List Atom) (start : Nat) :
    (atomsContaining name atoms start).length
      = (atoms.filter (fun a => argsContainVar a.arg_list name)).length := by
  induction atoms generalizing start with
  | nil => simp [atomsContaining]
  | cons a rest ih =>
    cases hcv : argsContainVar a.arg_list name with
    | false =>
      have hps : (varPositionsFrom name a.arg_list 0).isEmpty = true :=
        (varPositionsFrom_empty_iff name a.arg_list 0).mpr hcv
      simp [atomsContaining, hps, List.filter_cons, hcv, ih (start + 1)]
    | true =>
      have hps : ¬ (varPositionsFrom name a.arg_list 0).isEmpty = true := by
        intro hh
        rw [(varPositionsFrom_empty_iff name a.arg_list 0).mp hh] at hcv
        exact Bool.false_ne_true hcv
      simp [atomsContaining, hps, List.filter_cons, hcv, ih (start + 1)]

theorem atomsContaining_exists_multi (name : String) (atoms : List Atom) (start : Nat) :
    (∃ e ∈ atomsContaining name atoms start, 1 < e.2.length)
      ↔ ∃ a ∈ atoms, 1 < varCount a.arg_list name := by
  induction atoms generalizing start with
  | nil => simp [atomsContaining]
  | cons a rest ih =>
    have hlen : (varPositionsFrom name a.arg_list 0).length = varCount a.arg_list name :=
      varPositionsFrom_length name a.arg_list 0
    by_cases hps : (varPositionsFrom name a.arg_list 0).isEmpty = true
    · have hcount : varCount a.arg_list name = 0 := by
        rw [← hlen]
        rw [List.isEmpty_iff] at hps
        rw [hps]
        rfl
      rw [show atomsContaining name (a :: rest) start
          = atomsContaining name rest (start + 1) from by simp [atomsContaining, hps]]
      rw [ih (start + 1)]
      constructor
      · intro hh
        rcases hh with ⟨b, hb, h1⟩
        exact ⟨b, List.mem_cons_of_mem a hb, h1⟩
      · intro hh
        rcases hh with ⟨b, hb, h1⟩
        rcases List.mem_cons.mp hb with hb | hb
        · rw [hb, hcount] at h1
          exact absurd h1 (by simp)
        · exact ⟨b, hb, h1⟩
    · rw [show atomsContaining name (a :: rest) start
          = (start, varPositionsFrom name a.arg_list 0) :: atomsContaining name rest (start + 1)
        from by simp [atomsContaining, hps]]
      constructor
      · intro hh
        rcases hh with ⟨e, he, h1⟩
        rcases List.mem_cons.mp he with he | he
        · refine ⟨a, List.mem_cons_self a rest, ?_⟩
          rw [← hlen]
          rw [he] at h1
          exact h1
        · rcases (ih (start + 1)).mp ⟨e, he, h1⟩ with ⟨b, hb, h2⟩
          exact ⟨b, List.mem_cons_of_mem a hb, h2⟩
      · intro hh
        rcases hh with ⟨b, hb, h2⟩
        rcases List.mem_cons.mp hb with hb | hb
        · refine ⟨(start, varPositionsFrom name a.arg_list 0), List.mem_cons_self _ _, ?_⟩
          show 1 < (varPositionsFrom name a.arg_list 0).length
          rw [hb] at h2
          rw [hlen]
          exact h2
        · rcases (ih (start + 1)).mpr ⟨b, hb, h2⟩ with ⟨e, he, h1⟩
          exact ⟨e, List.mem_cons_of_mem _ he, h1⟩

/-- C5: a variable is a key of the JoinMap produced by `extract_join_map`
exactly when it occurs in more than one positive body atom or more than
once within a single atom; every JoinMap entry equals the corresponding
`extract_variable_arg_to_atom_map` entry, so variables occurring exactly
once in exactly one atom are excluded. -/
theorem join_map_characterization (body_atoms : List Atom) (name : String) :
    ((aget (extract_join_map (extract_variable_arg_to_atom_map body_atoms)) name).isSome
      ↔ (1 < (body_atoms.filter (fun a => argsContainVar a.arg_list name)).length
         ∨ ∃ a ∈ body_atoms, 1 < varCount a.arg_list name))
    ∧ (∀ inner,
        aget (extract_join_map (extract_variable_arg_to_atom_map body_atoms)) name = some inner
        → aget (extract_variable_arg_to_atom_map body_atoms) name = some inner) := by
  have hflt := aget_filter
      (fun p => decide (1 < p.2.length) || p.2.any (fun q => decide (1 < q.2.length)))
      (extract_variable_arg_to_atom_map body_atoms) name (nodup_keys_extract body_atoms)
  have hM := aget_extract_variable_arg_to_atom_map body_atoms name
  by_cases hemp : (atomsContaining name body_atoms 0).isEmpty
  · rw [if_pos hemp] at hM
    rw [List.isEmpty_iff] at hemp
    constructor
    · rw [show extract_join_map (extract_variable_arg_to_atom_map body_atoms)
          = (extract_variable_arg_to_atom_map body_atoms).filter
              (fun p => decide (1 < p.2.length) || p.2.any (fun q => decide (1 < q.2.length)))
        from rfl]
      rw [hflt, hM]
      simp only [Option.isSome_none, Bool.false_eq_true, false_iff, not_or, not_exists]
      constructor
      · rw [← atomsContaining_length name body_atoms 0, hemp]
        simp
      · intro a ha
        rcases (atomsContaining_exists_multi name body_atoms 0).mpr ⟨a, ha.1, ha.2⟩
          with ⟨e, he, _⟩
        rw [hemp] at he
        simp at he
    · intro inner hj
      rw [show extract_join_map (extract_variable_arg_to_atom_map body_atoms)
          = (extract_variable_arg_to_atom_map body_atoms).filter
              (fun p => decide (1 < p.2.length) || p.2.any (fun q => decide (1 < q.2.length)))
        from rfl] at hj
      rw [hflt, hM] at hj
      exact absurd hj (by simp)
  · rw [if_neg hemp] at hM
    have hjoin : aget (extract_join_map (extract_variable_arg_to_atom_map body_atoms)) name
        = if (decide (1 < (atomsContaining name body_atoms 0).length)
              || (atomsContaining name body_atoms 0).any (fun q => decide (1 < q.2.length)))
          then some (atomsContaining name body_atoms 0) else none := by
      rw [show extract_join_map (extract_variable_arg_to_atom_map body_atoms)
          = (extract_variable_arg_to_atom_map body_atoms).filter
              (fun p => decide (1 < p.2.length) || p.2.any (fun q => decide (1 < q.2.length)))
        from rfl]
      rw [hflt, hM]
    constructor
    · rw [hjoin]
      by_cases hpred : (decide (1 < (atomsContaining name body_atoms 0).length)
          || (atomsContaining name body_atoms 0).any (fun q => decide (1 < q.2.length))) = true
      · rw [if_pos hpred]
        simp only [Option.isSome_some, true_iff]
        rcases Bool.or_eq_true_iff.mp hpred with hp | hp
        · left
          rw [← atomsContaining_length name body_atoms 0]
          exact of_decide_eq_true hp
        · right
          rcases List.any_eq_true.mp hp with ⟨e, he, hlen⟩
          exact (atomsContaining_exists_multi name body_atoms 0).mp
            ⟨e, he, of_decide_eq_true hlen⟩
      · rw [if_neg hpred]
        simp only [Option.isSome_none, Bool.false_eq_true, false_iff, not_or, not_exists]
        rw [Bool.or_eq_true_iff, not_or] at hpred
        constructor
        · rw [← atomsContaining_length name body_atoms 0]
          intro hh
          exact hpred.1 (decide_eq_true hh)
        · intro a ha
          rcases (atomsContaining_exists_multi name body_atoms 0).mpr ⟨a, ha.1, ha.2⟩
            with ⟨e, he, hlen⟩
          exact hpred.2 (List.any_eq_true.mpr ⟨e, he, decide_eq_true hlen⟩)
    · intro inner hj
      rw [hjoin] at hj
      by_cases hpred : (decide (1 < (atomsContaining name body_atoms 0).length)
          || (atomsContaining name body_atoms 0).any (fun q => decide (1 < q.2.length))) = true
      · rw [if_pos hpred] at hj
        rw [hM, hj]
      · rw [if_neg hpred] at hj
        exact absurd hj (by simp)

/-- Witness for C5 at the spec scenario `Edge(x, y), Edge(y, z)` with
variable `y` (present in the JoinMap with its full index entry). -/
theorem join_map_characterization_witness :
    aget (extract_variable_arg_to_atom_map edgeBodyXYZ) "y" = some [(0, [1]), (1, [0])] :=
  (join_map_characterization edgeBodyXYZ "y").2 [(0, [1]), (1, [0])] (by decide)

theorem resolver_ok_of_built (body_atoms : List Atom) (name : String) (inner : VarEntry)
    (h : aget (extract_variable_arg_to_atom_map body_atoms) name = some inner) :
    ∃ mp : ArgMapping,
      search_argument_mapping_in_body_atoms (extract_variable_arg_to_atom_map body_atoms) name
        = .ok (some mp) := by
  have hC := aget_extract_variable_arg_to_atom_map body_atoms name
  rw [h] at hC
  by_cases hemp : (atomsContaining name body_atoms 0).isEmpty
  · rw [if_pos hemp] at hC
    exact absurd hC (by simp)
  · rw [if_neg hemp] at hC
    have hinner : inner = atomsContaining name body_atoms 0 := Option.some.inj hC
    obtain ⟨e, crest, hCs⟩ : ∃ e crest, atomsContaining name body_atoms 0 = e :: crest := by
      rcases hC' : atomsContaining name body_atoms 0 with _ | ⟨e, crest⟩
      · rw [hC'] at hemp
        exact absurd rfl hemp
      · exact ⟨e, crest, rfl⟩
    have hmem0 : e ∈ atomsContaining name body_atoms 0 := by
      rw [hCs]
      exact List.mem_cons_self e crest
    obtain ⟨p0, ptail, he2⟩ :=
      List.exists_cons_of_ne_nil (atomsContaining_entry name body_atoms 0 e hmem0).1
    refine ⟨⟨e.1, p0⟩, ?_⟩
    simp [search_argument_mapping_in_body_atoms, h, hinner, hCs, firstPair, he2]

theorem innerSum_aupdate (inner : List (Nat × List ComparisonStruct)) (gi : Nat)
    (s : ComparisonStruct) :
    innerSum (aupdate inner gi [] (fun l => l ++ [s])) = innerSum inner + 1 := by
  induction inner with
  | nil => simp [aupdate, innerSum]
  | cons p rest ih =>
    by_cases hp : p.1 = gi
    · simp [aupdate, hp, innerSum]
      omega
    · simp only [aupdate, hp, ite_false, innerSum, List.map_cons, List.sum_cons] at ih ⊢
      omega

theorem structCount_recordStruct (m : ComparisonMap) (mp : ArgMapping) (s : ComparisonStruct) :
    structCount (recordStruct m mp s) = structCount m + 1 := by
  unfold recordStruct
  induction m with
  | nil => simp [aupdate, structCount, innerSum]
  | cons p rest ih =>
    by_cases hp : p.1 = mp.atom_index
    · simp only [aupdate, hp, if_pos, structCount, List.map_cons, List.sum_cons]
      rw [innerSum_aupdate]
      omega
    · simp only [aupdate, hp, ite_false, structCount, List.map_cons, List.sum_cons] at ih ⊢
      omega

theorem processComparison_error (M : VariableArgToAtomMap) (c : Comparison)
    (acc : ComparisonMap) (h1 : c.lhs.ty ≠ "var") (h2 : c.rhs.ty ≠ "var") :
    processComparison M acc c = .error
      (.exception "At least one side of the comparison has to be variable in the body relations") := by
  simp [processComparison, h1, h2]

theorem processComparison_ok (body_atoms : List Atom) (c : Comparison) (acc : ComparisonMap)
    (htag1 : c.lhs.ty = "var" ∨ c.lhs.ty = "num")
    (htag2 : c.rhs.ty = "var" ∨ c.rhs.ty = "num")
    (hres1 : c.lhs.ty = "var"
      → (aget (extract_variable_arg_to_atom_map body_atoms) c.lhs.arg).isSome = true)
    (hres2 : c.rhs.ty = "var"
      → (aget (extract_variable_arg_to_atom_map body_atoms) c.rhs.arg).isSome = true)
    (hvar : c.lhs.ty = "var" ∨ c.rhs.ty = "var") :
    ∃ acc', processComparison (extract_variable_arg_to_atom_map body_atoms) acc c = .ok acc'
      ∧ structCount acc' = structCount acc + 1 := by
  by_cases hl : c.lhs.ty = "var"
  · rcases Option.isSome_iff_exists.mp (hres1 hl) with ⟨innerL, hiL⟩
    rcases resolver_ok_of_built body_atoms c.lhs.arg innerL hiL with ⟨mp, hmp⟩
    by_cases hrn : c.rhs.ty = "num"
    · refine ⟨recordStruct acc mp ⟨"l", c.op, .num c.rhs.arg⟩, ?_, structCount_recordStruct acc mp _⟩
      simp [processComparison, hl, hrn, hmp]
    · have hr : c.rhs.ty = "var" := by
        rcases htag2 with hh | hh
        · exact hh
        · exact absurd hh hrn
      rcases Option.isSome_iff_exists.mp (hres2 hr) with ⟨innerR, hiR⟩
      rcases resolver_ok_of_built body_atoms c.rhs.arg innerR hiR with ⟨mp2, hmp2⟩
      refine ⟨recordStruct acc mp ⟨"l", c.op, .varSide mp2.atom_index mp2.arg_index⟩, ?_,
        structCount_recordStruct acc mp _⟩
      simp [processComparison, hl, hrn, hmp, hmp2]
  · have hr : c.rhs.ty = "var" := by
      rcases hvar with hh | hh
      · exact absurd hh hl
      · exact hh
    have hln : c.lhs.ty = "num" := by
      rcases htag1 with hh | hh
      · exact absurd hh hl
      · exact hh
    rcases Option.isSome_iff_exists.mp (hres2 hr) with ⟨innerR, hiR⟩
    rcases resolver_ok_of_built body_atoms c.rhs.arg innerR hiR with ⟨mp, hmp⟩
    refine ⟨recordStruct acc mp ⟨"r", c.op, .num c.lhs.arg⟩, ?_, structCount_recordStruct acc mp _⟩
    simp [processComparison, hl, hr, hln, hmp]

theorem extract_comparison_fold (body_atoms : List Atom) (cs : List Comparison)
    (htags : ∀ c ∈ cs, (c.lhs.ty = "var" ∨ c.lhs.ty = "num")
      ∧ (c.rhs.ty = "var" ∨ c.rhs.ty = "num"))
    (hres : ∀ c ∈ cs,
      (c.lhs.ty = "var"
        → (aget (extract_variable_arg_to_atom_map body_atoms) c.lhs.arg).isSome = true)
      ∧ (c.rhs.ty = "var"
        → (aget (extract_variable_arg_to_atom_map body_atoms) c.rhs.arg).isSome = true)) :
    ∀ acc : ComparisonMap,
      ((cs.foldlM
          (fun m c => processComparison (extract_variable_arg_to_atom_map body_atoms) m c) acc
        = .error
          (.exception "At least one side of the comparison has to be variable in the body relations"))
        ↔ ∃ c ∈ cs, c.lhs.ty ≠ "var" ∧ c.rhs.ty ≠ "var")
      ∧ (∀ cm, cs.foldlM
          (fun m c => processComparison (extract_variable_arg_to_atom_map body_atoms) m c) acc
          = .ok cm → structCount cm = structCount acc + cs.length) := by
  induction cs with
  | nil =>
    intro acc
    constructor
    · simp [List.foldlM]
      intro h
      cases h
    · intro cm hcm
      rw [show ([] : List Comparison).foldlM
          (fun m c => processComparison (extract_variable_arg_to_atom_map body_atoms) m c) acc
        = Except.ok acc from rfl] at hcm
      injection hcm with hcm
      rw [← hcm]
      simp
  | cons c cs' ih =>
    intro acc
    have htagc := htags c (List.mem_cons_self c cs')
    have hresc := hres c (List.mem_cons_self c cs')
    have htags' : ∀ b ∈ cs', (b.lhs.ty = "var" ∨ b.lhs.ty = "num")
        ∧ (b.rhs.ty = "var" ∨ b.rhs.ty = "num") :=
      fun b hb => htags b (List.mem_cons_of_mem c hb)
    have hres' : ∀ b ∈ cs',
        (b.lhs.ty = "var"
          → (aget (extract_variable_arg_to_atom_map body_atoms) b.lhs.arg).isSome = true)
        ∧ (b.rhs.ty = "var"
          → (aget (extract_variable_arg_to_atom_map body_atoms) b.rhs.arg).isSome = true) :=
      fun b hb => hres b (List.mem_cons_of_mem c hb)
    by_cases hvar : c.lhs.ty = "var" ∨ c.rhs.ty = "var"
    · rcases processComparison_ok body_atoms c acc htagc.1 htagc.2 hresc.1 hresc.2 hvar
        with ⟨acc', hok, hcount⟩
      have hfold : (c :: cs').foldlM
          (fun m b => processComparison (extract_variable_arg_to_atom_map body_atoms) m b) acc
          = cs'.foldlM
            (fun m b => processComparison (extract_variable_arg_to_atom_map body_atoms) m b)
            acc' := by
        rw [List.foldlM_cons, hok]
        rfl
      rw [hfold]
      constructor
      · rw [(ih htags' hres' acc').1]
        constructor
        · intro hh
          rcases hh with ⟨b, hb, hmal⟩
          exact ⟨b, List.mem_cons_of_mem c hb, hmal⟩
        · intro hh
          rcases hh with ⟨b, hb, hmal⟩
          rcases List.mem_cons.mp hb with hb | hb
          · rw [hb] at hmal
            rcases hvar with hv | hv
            · exact absurd hv hmal.1
            · exact absurd hv hmal.2
          · exact ⟨b, hb, hmal⟩
      · intro cm hcm
        have := (ih htags' hres' acc').2 cm hcm
        rw [this, hcount]
        simp [List.length_cons]
        omega
    · rw [not_or] at hvar
      have herr := processComparison_error (extract_variable_arg_to_atom_map body_atoms) c acc
        hvar.1 hvar.2
      have hfold : (c :: cs').foldlM
          (fun m b => processComparison (extract_variable_arg_to_atom_map body_atoms) m b) acc
          = .error
            (.exception
              "At least one side of the comparison has to be variable in the body relations") := by
        rw [List.foldlM_cons, herr]
        rfl
      rw [hfold]
      constructor
      · simp only [true_iff]
        exact ⟨c, List.mem_cons_self c cs', hvar.1, hvar.2⟩
      · intro cm hcm
        cases hcm

/-- C4: for body comparisons whose operand tags follow the parser contract
(`var`/`num`) and whose variable operands occur in the positive body,
`extract_comparison_map` fails with the validation exception exactly when
some comparison has no variable operand on either side; when no such
comparison exists it returns a map recording exactly one struct per
comparison. -/
theorem comparison_map_error_characterization (body_atoms : List Atom)
    (body_comparisons : List Comparison)
    (htags : ∀ c ∈ body_comparisons, (c.lhs.ty = "var" ∨ c.lhs.ty = "num")
      ∧ (c.rhs.ty = "var" ∨ c.rhs.ty = "num"))
    (hres : ∀ c ∈ body_comparisons,
      (c.lhs.ty = "var"
        → (aget (extract_variable_arg_to_atom_map body_atoms) c.lhs.arg).isSome = true)
      ∧ (c.rhs.ty = "var"
        → (aget (extract_variable_arg_to_atom_map body_atoms) c.rhs.arg).isSome = true)) :
    ((extract_comparison_map body_comparisons (extract_variable_arg_to_atom_map body_atoms)
        = .error
          (.exception "At least one side of the comparison has to be variable in the body relations"))
      ↔ ∃ c ∈ body_comparisons, c.lhs.ty ≠ "var" ∧ c.rhs.ty ≠ "var")
    ∧ (∀ cm, extract_comparison_map body_comparisons (extract_variable_arg_to_atom_map body_atoms)
        = .ok cm → structCount cm = body_comparisons.length) := by
  have h := extract_comparison_fold body_atoms body_comparisons htags hres []
  constructor
  · exact h.1
  · intro cm hcm
    have := h.2 cm hcm
    rw [this]
    simp [structCount]

/-- Witness for C4 at the spec scenario comparison `x > 5` over the body
`Edge(x, y)`. -/
theorem comparison_map_error_characterization_witness :
    ((extract_comparison_map [⟨⟨"x", "var"⟩, ⟨"5", "num"⟩, ">"⟩]
        (extract_variable_arg_to_atom_map edgeBodyXY)
        = .error
          (.exception "At least one side of the comparison has to be variable in the body relations"))
      ↔ ∃ c ∈ [(⟨⟨"x", "var"⟩, ⟨"5", "num"⟩, ">"⟩ : Comparison)],
          c.lhs.ty ≠ "var" ∧ c.rhs.ty ≠ "var")
    ∧ (∀ cm, extract_comparison_map [⟨⟨"x", "var"⟩, ⟨"5", "num"⟩, ">"⟩]
        (extract_variable_arg_to_atom_map edgeBodyXY)
        = .ok cm → structCount cm = [(⟨⟨"x", "var"⟩, ⟨"5", "num"⟩, ">"⟩ : Comparison)].length) :=
  comparison_map_error_characterization edgeBodyXY [⟨⟨"x", "var"⟩, ⟨"5", "num"⟩, ">"⟩]
    (by decide) (by decide)

/-- C9: when both comparison operands are variables (both resolving against
the positive body), the left-hand side is always chosen as the base: the
struct carries `base_variable_side = 'l'`, attaches at the left variable's
resolved position, and stores the right variable's resolved position as the
other side. -/
theorem comparison_both_var_left_base (body_atoms : List Atom) (c : Comparison)
    (hl : c.lhs.ty = "var") (hr : c.rhs.ty = "var")
    (hkl : (aget (extract_variable_arg_to_atom_map body_atoms) c.lhs.arg).isSome = true)
    (hkr : (aget (extract_variable_arg_to_atom_map body_atoms) c.rhs.arg).isSome = true) :
    ∃ mpL mpR : ArgMapping,
      search_argument_mapping_in_body_atoms (extract_variable_arg_to_atom_map body_atoms)
        c.lhs.arg = .ok (some mpL)
      ∧ search_argument_mapping_in_body_atoms (extract_variable_arg_to_atom_map body_atoms)
          c.rhs.arg = .ok (some mpR)
      ∧ extract_comparison_map [c] (extract_variable_arg_to_atom_map body_atoms)
          = .ok [(mpL.atom_index,
              [(mpL.arg_index, [⟨"l", c.op, .varSide mpR.atom_index mpR.arg_index⟩])])] := by
  rcases Option.isSome_iff_exists.mp hkl with ⟨innerL, hiL⟩
  rcases resolver_ok_of_built body_atoms c.lhs.arg innerL hiL with ⟨mpL, hmL⟩
  rcases Option.isSome_iff_exists.mp hkr with ⟨innerR, hiR⟩
  rcases resolver_ok_of_built body_atoms c.rhs.arg innerR hiR with ⟨mpR, hmR⟩
  refine ⟨mpL, mpR, hmL, hmR, ?_⟩
  have hrn : ¬ c.rhs.ty = "num" := by
    rw [hr]
    decide
  have hone : extract_comparison_map [c] (extract_variable_arg_to_atom_map body_atoms)
      = processComparison (extract_variable_arg_to_atom_map body_atoms) [] c := by
    show processComparison (extract_variable_arg_to_atom_map body_atoms) [] c >>= pure
      = processComparison (extract_variable_arg_to_atom_map body_atoms) [] c
    cases processComparison (extract_variable_arg_to_atom_map body_atoms) [] c <;> rfl
  rw [hone]
  simp [processComparison, hl, hrn, hmL, hmR, recordStruct, aupdate]

/-- Witness for C9 at the comparison `x < z` over the body
`Edge(x, y), Edge(y, z)`. -/
theorem comparison_both_var_left_base_witness :
    ∃ mpL mpR : ArgMapping,
      search_argument_mapping_in_body_atoms (extract_variable_arg_to_atom_map edgeBodyXYZ)
        (⟨⟨"x", "var"⟩, ⟨"z", "var"⟩, "<"⟩ : Comparison).lhs.arg = .ok (some mpL)
      ∧ search_argument_mapping_in_body_atoms (extract_variable_arg_to_atom_map edgeBodyXYZ)
          (⟨⟨"x", "var"⟩, ⟨"z", "var"⟩, "<"⟩ : Comparison).rhs.arg = .ok (some mpR)
      ∧ extract_comparison_map [⟨⟨"x", "var"⟩, ⟨"z", "var"⟩, "<"⟩]
          (extract_variable_arg_to_atom_map edgeBodyXYZ)
          = .ok [(mpL.atom_index,
              [(mpL.arg_index,
                [⟨"l", (⟨⟨"x", "var"⟩, ⟨"z", "var"⟩, "<"⟩ : Comparison).op,
                  .varSide mpR.atom_index mpR.arg_index⟩])])] :=
  comparison_both_var_left_base edgeBodyXYZ ⟨⟨"x", "var"⟩, ⟨"z", "var"⟩, "<"⟩
    rfl rfl (by decide) (by decide)

/-- C1 (divergence evaluation): with no body atom in the eval set
(`idb_num = 0`, body non-empty) the group builder emits zero groups — the
single all-`default` group has `prev_count = 0 = idb_num`, so the removal
loop written to drop the all-`prev` combination deletes it — while for two
distinct recursive relations it emits the expected `2^2 - 1 = 3` groups
(delta/prev, prev/delta, delta/delta), the all-`prev` group excluded. -/
theorem recursive_alias_groups_idb_zero_bug :
    build_recursive_atom_alias_groups [⟨"A", []⟩]
      (build_recursive_atom_aliases [⟨"A", []⟩] [] 1) = []
    ∧ build_recursive_atom_alias_groups [⟨"A", []⟩, ⟨"B", []⟩]
        (build_recursive_atom_aliases [⟨"A", []⟩, ⟨"B", []⟩] ["A", "B"] 1)
      = [[⟨"A_delta_0", "delta"⟩, ⟨"B_prev", "prev"⟩],
         [⟨"A_prev", "prev"⟩, ⟨"B_delta_0", "delta"⟩],
         [⟨"A_delta_0", "delta"⟩, ⟨"B_delta_0", "delta"⟩]] := by
  constructor
  · rfl
  · rfl

/-- C2 (divergence evaluation): the spec scenario — negated atom
`Edge(x, w)` over positive body `Edge(x, y)`, where `x` resolves but `w`
does not occur in the positive body — makes `extract_negation_map` raise
`KeyError('w')` through the binding resolver instead of completing with
`w` recorded in the negation map and omitted from the anti-join map. -/
theorem negation_map_unresolved_variable_bug :
    extract_negation_map [⟨"Edge", [⟨"x", "variable"⟩, ⟨"w", "variable"⟩]⟩]
      (extract_variable_arg_to_atom_map edgeBodyXY) = .error (.keyError "w") := rfl

/-- C3 (divergence evaluation): resolving a name that never occurs in the
positive body raises `KeyError` — line 53 subscripts the dict before any
membership check — instead of producing the `None` "not found" result that
line 59 and the caller's `is None` test intend. -/
theorem search_missing_variable_key_error_bug :
    search_argument_mapping_in_body_atoms (extract_variable_arg_to_atom_map edgeBodyXY) "w"
      = .error (.keyError "w") := rfl

end RecStep
